import Mathlib

/-!
Shallow embedding of the Digiac-3080 emulator core (`digiac.py`).

A machine word is packed into a natural number: sign at bit 24, 24-bit
magnitude below (Python packs into a 32-bit array slot the same way).
Registers are (sign, magnitude) pairs, as in the Python tuples.
Memory is a total function from addresses to packed words; the emulator
only ever indexes it with values below 4096.

I/O side effects that the claims never mention (terminal printing,
throttling sleep) are dropped; the returned "effect" strings are kept,
since several claims are about them.  The paper-tape reader handle is an
`Option (List ℕ)` holding the remaining byte stream, `none` when no tape
is attached.  Keyboard input for TI is a stream of already-decoded Digiac
character codes (the Python `_ti_char` loops until it can return a value
of its 64-entry table, so every delivered code is below 64).
-/

namespace Digiac3080

/-- Machine state: memory, program counter, A and B registers,
instruction counter, breakpoint and address-compare-stop lists, run flag,
paper-tape reader stream, keyboard stream, and the decoded instruction
fields (`opcode`, `count`, `addr`) that the Python object keeps as
instance attributes. -/
structure State where
  mem : ℕ → ℕ
  pc : ℕ
  a : ℕ × ℕ
  b : ℕ × ℕ
  instruction_count : ℕ
  bpt : List ℕ
  acs : List ℕ
  run : Bool
  ptr : Option (List ℕ)
  tiStream : ℕ → Fin 64
  opcode : ℕ
  count : ℕ
  addr : ℕ

/-- `rm`: read a memory word; an address in the address-compare-stop list
clears the run flag (the value is still returned). -/
def rm (s : State) (i : ℕ) : State × ℕ :=
  (if i ∈ s.acs then { s with run := false } else s, s.mem i)

/-- `wm`: write a memory word; an address in the address-compare-stop list
clears the run flag (the write still happens). -/
def wm (s : State) (i v : ℕ) : State :=
  let s1 := if i ∈ s.acs then { s with run := false } else s
  { s1 with mem := fun j => if j = i then v else s1.mem j }

/-- `_shift`: bidirectional shift of a magnitude by the decoded 6-bit
count.  `count & 0o40` is rendered as `count / 32 % 2 = 1`; the Python
`>>`, `<<` and `& 0xFFFFFF` become `/ 2^k`, `* 2^k` and `% 2^24`. -/
def shift (s : State) (v : ℕ) : ℕ :=
  (if s.count / 32 % 2 = 1 then v / 2 ^ (64 - s.count) else v * 2 ^ s.count) % 2 ^ 24

/-- `_sign`: apply the sign modifier selected by the low two opcode bits
to a sign indication `sv` (any non-zero `sv` counts as negative, like
Python truthiness). -/
def signMod (s : State) (sv : ℕ) : ℕ :=
  let sgn := if sv ≠ 0 then 1 else 0
  if s.opcode % 4 = 1 then 1 - sgn
  else if s.opcode % 4 = 2 then 0
  else if s.opcode % 4 = 3 then 1
  else sgn

/-- Octal rendering of `n`, zero-padded to width `w`
(Python `f"{n:0wo}"`). -/
def fmtOctW (w n : ℕ) : String :=
  let ds := Nat.toDigits 8 n
  String.mk (List.replicate (w - ds.length) (Char.ofNat 48) ++ ds)

/-- `reg_str` with an empty letter: sign character followed by eight
octal digits. -/
def reg_str (sgn val : ℕ) : String :=
  (if sgn ≠ 0 then "-" else "+") ++ fmtOctW 8 val

/-- `_arg_fetch`: read the word at the decoded address and return the
possibly-stopped state with the modified (sign, magnitude) argument.
`wd & 0xFF000000` is the high byte `wd / 2^24 % 256`. -/
def arg_fetch (s : State) : State × ℕ × ℕ :=
  let p := rm s s.addr
  (p.1, signMod s (p.2 / 2 ^ 24 % 256), shift s (p.2 % 2 ^ 24))

/-- `_store_reg`: pack a register through the modifier unit and write it
to memory. -/
def store_reg (s : State) (i : ℕ) (reg : ℕ × ℕ) : State × String :=
  let sgn := signMod s reg.1
  let val := shift s reg.2
  let s1 := wm s i (sgn * 2 ^ 24 + val)
  (s1, "[" ++ fmtOctW 4 i ++ "] <- " ++ reg_str sgn val)

/-- HLT. -/
def inst_hlt (s : State) : State × String :=
  ({ s with run := false }, "HALTED at " ++ fmtOctW 4 s.pc)

/-- AND: magnitude is bitwise and of argument and A; sign follows A only
when the argument is negative. -/
def inst_and (s : State) : State × String :=
  let p := arg_fetch s
  let s1 := p.1
  let sgn := if p.2.1 ≠ 0 then s1.a.1 else 0
  let val := p.2.2 &&& s1.a.2
  ({ s1 with a := (sgn, val) }, "A      <- " ++ reg_str sgn val)

/-- CLA/CLS: load the modified argument into A. -/
def inst_cla (s : State) : State × String :=
  let p := arg_fetch s
  ({ p.1 with a := (p.2.1, p.2.2) }, "A      <- " ++ reg_str p.2.1 p.2.2)

/-- ADD/SUB: signed sum of A and the modified argument, rebuilt as
sign-magnitude with the magnitude masked to 24 bits. -/
def inst_add (s : State) : State × String :=
  let p := arg_fetch s
  let s1 := p.1
  let accum : ℤ :=
    (if s1.a.1 ≠ 0 then -(s1.a.2 : ℤ) else (s1.a.2 : ℤ)) +
      (if p.2.1 ≠ 0 then -(p.2.2 : ℤ) else (p.2.2 : ℤ))
  let sgn : ℕ := if accum < 0 then 1 else 0
  let mag : ℕ := (if accum < 0 then -accum else accum).toNat % 2 ^ 24
  ({ s1 with a := (sgn, mag) }, "A      <- " ++ reg_str sgn mag)

/-- MLT: 48-bit product split into A (high) and B (low); sign is the
exclusive or of the operand signs, copied to both registers. -/
def inst_mlt (s : State) : State × String :=
  let p := arg_fetch s
  let s1 := p.1
  let accum := s1.a.2 * p.2.2
  let sgn : ℕ := if (s1.a.1 = 0 ↔ p.2.1 = 0) then 0 else 1
  let av := accum / 2 ^ 24 % 2 ^ 24
  let bv := accum % 2 ^ 24
  ({ s1 with a := (sgn, av), b := (sgn, bv) },
    "AB: " ++ (if sgn ≠ 0 then "-" else "+") ++ fmtOctW 8 av ++ " " ++ fmtOctW 8 bv)

/-- DIV: divide `A.magnitude << 24` by the modified argument magnitude;
remainder to A, quotient to B, both masked; a zero divisor stops the CPU
and leaves A and B untouched. -/
def inst_div (s : State) : State × String :=
  let p := arg_fetch s
  let s1 := p.1
  let sgn : ℕ := if (s1.a.1 = 0 ↔ p.2.1 = 0) then 0 else 1
  if p.2.2 = 0 then
    ({ s1 with run := false }, "Divide by Zero Stop")
  else
    let divdd := s1.a.2 * 2 ^ 24
    let quot := divdd / p.2.2 % 2 ^ 24
    let remd := divdd % p.2.2 % 2 ^ 24
    ({ s1 with a := (sgn, remd), b := (sgn, quot) },
      "AB: " ++ (if sgn ≠ 0 then "-" else "+") ++ fmtOctW 8 remd ++ " " ++ fmtOctW 8 quot)

/-- STA. -/
def inst_sta (s : State) : State × String :=
  store_reg s s.addr s.a

/-- STB. -/
def inst_stb (s : State) : State × String :=
  store_reg s s.addr s.b

/-- JMP. -/
def inst_jmp (s : State) : State × String :=
  let s1 := { s with pc := s.addr }
  (s1, "PC     <-      " ++ fmtOctW 4 s1.pc)

/-- Branch on negative non-zero A. -/
def inst_br_minus (s : State) : State × String :=
  if s.a.1 ≠ 0 ∧ s.a.2 ≠ 0 then inst_jmp s else (s, "no branch")

/-- Branch on positive non-zero A. -/
def inst_br_plus (s : State) : State × String :=
  if s.a.1 = 0 ∧ s.a.2 ≠ 0 then inst_jmp s else (s, "no branch")

/-- Branch on zero A magnitude. -/
def inst_brz (s : State) : State × String :=
  if s.a.2 ≠ 0 then (s, "no branch") else inst_jmp s

/-- TA word loop: each of the `64 - count` words is fetched (which may
trip an address-compare stop) and the working address advances modulo
4096; the characters themselves only go to the terminal. -/
def taLoop (s : State) : ℕ → State
  | 0 => s
  | n + 1 =>
    let s1 := (rm s s.addr).1
    taLoop { s1 with addr := (s1.addr + 1) % 4096 } n

/-- TA. -/
def inst_ta (s : State) : State × String :=
  let s1 := taLoop s (64 - s.count)
  (s1, "next addr:     " ++ fmtOctW 4 s1.addr)

/-- Outcome of `_do_rt` on a byte stream: a parsed word with the
remaining stream, end of stream (the Python code closes and detaches the
tape, then raises `EOFError`), or an invalid byte (Python raises
`RuntimeError` after having consumed the byte). -/
inductive RTRes where
  | word (w : ℕ) (rest : List ℕ)
  | eof
  | invalid (rest : List ℕ)
deriving DecidableEq

/-- `_do_rt`: parse one word from the tape byte stream.  `sgn` is `none`
until the sign byte has been seen, then `some 0` or `some (2^24)`;
`numCols` counts the digit bytes still needed (4 at entry). -/
def doRT (sgn : Option ℕ) (val numCols : ℕ) : List ℕ → RTRes
  | [] =>
    if numCols = 0 then RTRes.word (sgn.getD 0 + val) [] else RTRes.eof
  | c :: rest =>
    if numCols = 0 then RTRes.word (sgn.getD 0 + val) (c :: rest)
    else if 64 < c then RTRes.invalid rest
    else if c = 0 then doRT sgn val numCols rest
    else
      let cv := if c = 64 then 0 else c
      match sgn with
      | none => doRT (some (if cv = 0 then 0 else 2 ^ 24)) val numCols rest
      | some sg => doRT (some sg) (val * 64 + cv) (numCols - 1) rest

/-- RT word loop over the remaining iteration count.  On normal
completion the remaining stream is written back to the tape handle; end
of stream detaches the tape and stops the loop without touching the run
flag; an invalid byte stops the loop and clears the run flag. -/
def rtLoop (s : State) (bytes : List ℕ) : ℕ → State
  | 0 => { s with ptr := some bytes }
  | n + 1 =>
    match doRT none 0 4 bytes with
    | RTRes.eof => { s with ptr := none }
    | RTRes.invalid rest => { s with run := false, ptr := some rest }
    | RTRes.word w rest =>
      let s1 := wm s s.addr w
      rtLoop { s1 with addr := (s1.addr + 1) % 4096 } rest n

/-- RT. -/
def inst_rt (s : State) : State × String :=
  match s.ptr with
  | some bytes =>
    let s1 := rtLoop s bytes (64 - s.count)
    (s1, "next addr:     " ++ fmtOctW 4 s1.addr)
  | none => ({ s with run := false }, "No Tape in PTReader")

/-- One TI word: four consecutive 6-bit codes packed
most-significant-first. -/
def tiWord (f : ℕ → Fin 64) : ℕ :=
  (((f 0 : ℕ) * 64 + (f 1 : ℕ)) * 64 + (f 2 : ℕ)) * 64 + (f 3 : ℕ)

/-- TI word loop: pack and store `64 - count` words, advancing the
address modulo 4096 and consuming four codes per word. -/
def tiLoop (s : State) : ℕ → State
  | 0 => s
  | n + 1 =>
    let s1 := wm s s.addr (tiWord s.tiStream)
    tiLoop { s1 with addr := (s1.addr + 1) % 4096,
                     tiStream := fun k => s1.tiStream (k + 4) } n

/-- TI. -/
def inst_ti (s : State) : State × String :=
  let s1 := tiLoop s (64 - s.count)
  (s1, "next addr:     " ++ fmtOctW 4 s1.addr)

/-- The opcode families present in `_implemented_instructions`. -/
inductive Op where
  | hlt | andA | cla | add | mlt | div | sta | stb
  | jmp | brMinus | brPlus | brz | ta | rt | ti
deriving DecidableEq

/-- The dispatch dictionary `_implemented_instructions` as a partial map
from the decoded 6-bit opcode to its handler family. -/
def decodeOp (op : ℕ) : Option Op :=
  if op = 0o00 then some Op.hlt
  else if 0o04 ≤ op ∧ op ≤ 0o07 then some Op.andA
  else if 0o10 ≤ op ∧ op ≤ 0o13 then some Op.cla
  else if 0o14 ≤ op ∧ op ≤ 0o17 then some Op.add
  else if 0o20 ≤ op ∧ op ≤ 0o23 then some Op.mlt
  else if 0o24 ≤ op ∧ op ≤ 0o27 then some Op.div
  else if 0o30 ≤ op ∧ op ≤ 0o33 then some Op.sta
  else if 0o34 ≤ op ∧ op ≤ 0o37 then some Op.stb
  else if op = 0o44 then some Op.jmp
  else if op = 0o45 then some Op.brMinus
  else if op = 0o46 then some Op.brPlus
  else if op = 0o47 then some Op.brz
  else if op = 0o54 then some Op.ta
  else if op = 0o60 then some Op.rt
  else if op = 0o63 then some Op.ti
  else none

/-- Run one handler family. -/
def runOp : Op → State → State × String
  | Op.hlt => inst_hlt
  | Op.andA => inst_and
  | Op.cla => inst_cla
  | Op.add => inst_add
  | Op.mlt => inst_mlt
  | Op.div => inst_div
  | Op.sta => inst_sta
  | Op.stb => inst_stb
  | Op.jmp => inst_jmp
  | Op.brMinus => inst_br_minus
  | Op.brPlus => inst_br_plus
  | Op.brz => inst_brz
  | Op.ta => inst_ta
  | Op.rt => inst_rt
  | Op.ti => inst_ti

/-- `exec`: one instruction step.  A breakpoint at the current PC stops
the CPU before anything else happens; otherwise the instruction word is
fetched, the PC incremented modulo 4096, the instruction counter bumped,
the word decoded into opcode/count/address, and the handler dispatched
(unknown opcodes stop the CPU). -/
def exec (s : State) : State × String :=
  if s.pc ∈ s.bpt then
    ({ s with run := false }, "Breakpoint at " ++ fmtOctW 4 s.pc)
  else
    let p := rm s s.pc
    let instr := p.2
    let s1 := { p.1 with
      pc := (p.1.pc + 1) % 4096,
      instruction_count := p.1.instruction_count + 1,
      opcode := instr / 2 ^ 18 % 64,
      count := instr / 2 ^ 12 % 64,
      addr := instr % 4096 }
    match decodeOp s1.opcode with
    | some op => runOp op s1
    | none =>
      ({ s1 with run := false },
        "Invalid or Unknown OPCODE " ++ fmtOctW 8 instr ++ " at " ++ fmtOctW 4 s.pc)

/-- `__init__`: initial machine state, parameterised by the random
power-on memory content (an independent sign bit and 24-bit magnitude
for every address). -/
def initState (sg : ℕ → Fin 2) (mg : ℕ → Fin (2 ^ 24)) : State :=
  { mem := fun i => (sg i : ℕ) * 2 ^ 24 + (mg i : ℕ)
    pc := 0
    a := (0, 0)
    b := (0, 0)
    instruction_count := 0
    bpt := []
    acs := []
    run := true
    ptr := none
    tiStream := fun _ => 0
    opcode := 0
    count := 0
    addr := 0 }

/-- The machine invariant of §8: PC in range, register signs 0/1,
register magnitudes within 24 bits, and every packed memory word below
`2^25` (sign bit 0/1 and 24-bit magnitude). -/
def Inv (s : State) : Prop :=
  s.pc < 4096 ∧ s.a.1 < 2 ∧ s.a.2 < 2 ^ 24 ∧ s.b.1 < 2 ∧ s.b.2 < 2 ^ 24 ∧
    ∀ i, s.mem i < 2 ^ 25

/-- Equivalence of tape-parse outcomes up to blank bytes in the leftover
stream: same constructor, same parsed word, and leftover streams that
agree after dropping 0x00 bytes. -/
def RTEq : RTRes → RTRes → Prop
  | RTRes.word w1 r1, RTRes.word w2 r2 =>
    w1 = w2 ∧ r1.filter (· != 0) = r2.filter (· != 0)
  | RTRes.eof, RTRes.eof => True
  | RTRes.invalid r1, RTRes.invalid r2 => r1.filter (· != 0) = r2.filter (· != 0)
  | _, _ => False

/-- A concrete quiescent state used to instantiate theorems on explicit
inputs: zeroed memory and registers, no breakpoints, stops or tape. -/
def st0 : State :=
  { mem := fun _ => 0
    pc := 0
    a := (0, 0)
    b := (0, 0)
    instruction_count := 0
    bpt := []
    acs := []
    run := true
    ptr := none
    tiStream := fun _ => 0
    opcode := 0
    count := 0
    addr := 0 }

section Lemmas

@[simp] theorem rm_mem (s : State) (i : ℕ) : (rm s i).1.mem = s.mem := by
  unfold rm; split <;> rfl

@[simp] theorem rm_a (s : State) (i : ℕ) : (rm s i).1.a = s.a := by
  unfold rm; split <;> rfl

@[simp] theorem rm_b (s : State) (i : ℕ) : (rm s i).1.b = s.b := by
  unfold rm; split <;> rfl

@[simp] theorem rm_pc (s : State) (i : ℕ) : (rm s i).1.pc = s.pc := by
  unfold rm; split <;> rfl

@[simp] theorem rm_icnt (s : State) (i : ℕ) :
    (rm s i).1.instruction_count = s.instruction_count := by
  unfold rm; split <;> rfl

@[simp] theorem rm_opcode (s : State) (i : ℕ) : (rm s i).1.opcode = s.opcode := by
  unfold rm; split <;> rfl

@[simp] theorem rm_count (s : State) (i : ℕ) : (rm s i).1.count = s.count := by
  unfold rm; split <;> rfl

@[simp] theorem rm_addr (s : State) (i : ℕ) : (rm s i).1.addr = s.addr := by
  unfold rm; split <;> rfl

@[simp] theorem rm_bpt (s : State) (i : ℕ) : (rm s i).1.bpt = s.bpt := by
  unfold rm; split <;> rfl

@[simp] theorem rm_acs (s : State) (i : ℕ) : (rm s i).1.acs = s.acs := by
  unfold rm; split <;> rfl

@[simp] theorem rm_ptr (s : State) (i : ℕ) : (rm s i).1.ptr = s.ptr := by
  unfold rm; split <;> rfl

@[simp] theorem rm_tiStream (s : State) (i : ℕ) : (rm s i).1.tiStream = s.tiStream := by
  unfold rm; split <;> rfl

@[simp] theorem rm_val (s : State) (i : ℕ) : (rm s i).2 = s.mem i := rfl

@[simp] theorem wm_mem (s : State) (i v j : ℕ) :
    (wm s i v).mem j = if j = i then v else s.mem j := by
  unfold wm; split <;> rfl

@[simp] theorem wm_a (s : State) (i v : ℕ) : (wm s i v).a = s.a := by
  unfold wm; split <;> rfl

@[simp] theorem wm_b (s : State) (i v : ℕ) : (wm s i v).b = s.b := by
  unfold wm; split <;> rfl

@[simp] theorem wm_pc (s : State) (i v : ℕ) : (wm s i v).pc = s.pc := by
  unfold wm; split <;> rfl

@[simp] theorem wm_icnt (s : State) (i v : ℕ) :
    (wm s i v).instruction_count = s.instruction_count := by
  unfold wm; split <;> rfl

@[simp] theorem wm_opcode (s : State) (i v : ℕ) : (wm s i v).opcode = s.opcode := by
  unfold wm; split <;> rfl

@[simp] theorem wm_count (s : State) (i v : ℕ) : (wm s i v).count = s.count := by
  unfold wm; split <;> rfl

@[simp] theorem wm_addr (s : State) (i v : ℕ) : (wm s i v).addr = s.addr := by
  unfold wm; split <;> rfl

@[simp] theorem wm_bpt (s : State) (i v : ℕ) : (wm s i v).bpt = s.bpt := by
  unfold wm; split <;> rfl

@[simp] theorem wm_acs (s : State) (i v : ℕ) : (wm s i v).acs = s.acs := by
  unfold wm; split <;> rfl

@[simp] theorem wm_ptr (s : State) (i v : ℕ) : (wm s i v).ptr = s.ptr := by
  unfold wm; split <;> rfl

@[simp] theorem wm_tiStream (s : State) (i v : ℕ) : (wm s i v).tiStream = s.tiStream := by
  unfold wm; split <;> rfl

@[simp] theorem arg_fetch_a (s : State) : (arg_fetch s).1.a = s.a := by
  simp [arg_fetch]

@[simp] theorem arg_fetch_b (s : State) : (arg_fetch s).1.b = s.b := by
  simp [arg_fetch]

@[simp] theorem arg_fetch_mem (s : State) : (arg_fetch s).1.mem = s.mem := by
  simp [arg_fetch]

@[simp] theorem arg_fetch_pc (s : State) : (arg_fetch s).1.pc = s.pc := by
  simp [arg_fetch]

@[simp] theorem arg_fetch_icnt (s : State) :
    (arg_fetch s).1.instruction_count = s.instruction_count := by
  simp [arg_fetch]

@[simp] theorem arg_fetch_addr (s : State) : (arg_fetch s).1.addr = s.addr := by
  simp [arg_fetch]

theorem signMod_lt_two (s : State) (sv : ℕ) : signMod s sv < 2 := by
  have h : ∀ sgn : ℕ, sgn < 2 →
      (if s.opcode % 4 = 1 then 1 - sgn
       else if s.opcode % 4 = 2 then 0
       else if s.opcode % 4 = 3 then 1 else sgn) < 2 := by
    intro sgn hs
    split
    · omega
    · split
      · omega
      · split
        · omega
        · omega
  exact h _ (by split <;> omega)

theorem shift_lt (s : State) (v : ℕ) : shift s v < 2 ^ 24 :=
  Nat.mod_lt _ (by norm_num)

end Lemmas

/-- C1: the modifier unit's 6-bit count selects a bidirectional shift of
the 24-bit magnitude: bit 5 set means right-shift by `64 - count`,
otherwise left-shift by `count`; the result is always masked to 24 bits;
`count = 0` leaves the magnitude unchanged; and the same `shift` is what
argument fetch applies to the fetched magnitude and what STA/STB-style
stores apply to the stored magnitude. -/
theorem shift_bidirectional (s : State) (v : ℕ) (hv : v < 2 ^ 24) :
    (s.count.testBit 5 = true → shift s v = v >>> (64 - s.count) % 2 ^ 24) ∧
    (s.count.testBit 5 = false → shift s v = v <<< s.count % 2 ^ 24) ∧
    (s.count = 0 → shift s v = v) ∧
    shift s v < 2 ^ 24 ∧
    (arg_fetch s).2.2 = shift s (s.mem s.addr % 2 ^ 24) ∧
    (∀ reg, (store_reg s s.addr reg).1.mem s.addr % 2 ^ 24 = shift s reg.2) := by
  have hbit : s.count.testBit 5 = decide (s.count / 2 ^ 5 % 2 = 1) :=
    Nat.testBit_to_div_mod
  refine ⟨?_, ?_, ?_, shift_lt s v, rfl, ?_⟩
  · intro h
    rw [hbit] at h
    have h1 : s.count / 32 % 2 = 1 := by simpa using of_decide_eq_true h
    rw [Nat.shiftRight_eq_div_pow]
    unfold shift
    rw [if_pos h1]
  · intro h
    rw [hbit] at h
    have h1 : ¬s.count / 32 % 2 = 1 := by simpa using of_decide_eq_false h
    rw [Nat.shiftLeft_eq]
    unfold shift
    rw [if_neg h1]
  · intro h
    unfold shift
    rw [h]
    simp only [Nat.zero_div, Nat.zero_mod, pow_zero, mul_one]
    rw [if_neg (by norm_num)]
    exact Nat.mod_eq_of_lt hv
  · intro reg
    have hs : shift s reg.2 < 2 ^ 24 := shift_lt s reg.2
    have hm : signMod s reg.1 < 2 := signMod_lt_two s reg.1
    simp [store_reg]
    omega

/-- Witness for C1 at concrete inputs: count 61 (bit 5 set) shifts 40
right by 3 to 5, count 3 shifts 5 left to 40, count 0 is the identity. -/
theorem shift_bidirectional_witness :
    (40 < 2 ^ 24 ∧ shift { st0 with count := 61 } 40 = 40 >>> (64 - 61) % 2 ^ 24) ∧
    (shift { st0 with count := 3 } 5 = 5 <<< 3 % 2 ^ 24) ∧
    (shift { st0 with count := 0 } 9 = 9) ∧
    shift { st0 with count := 61 } 40 = 5 := by
  refine ⟨⟨by decide, ?_⟩, ?_, ?_, by decide⟩
  · exact (shift_bidirectional { st0 with count := 61 } 40 (by decide)).1 (by decide)
  · exact (shift_bidirectional { st0 with count := 3 } 5 (by decide)).2.1 (by decide)
  · exact (shift_bidirectional { st0 with count := 0 } 9 (by decide)).2.2.1 rfl

/-- C2: an ADD-family handler rebuilds A as the sign-magnitude encoding
of the signed sum of the prior A and the modified argument: sign 1
exactly when the sum is negative, magnitude the absolute value of the
sum masked to 24 bits. -/
theorem add_sign_magnitude (s : State) :
    (inst_add s).1.a =
      (let p := arg_fetch s
       let sum : ℤ :=
         (if s.a.1 ≠ 0 then -(s.a.2 : ℤ) else (s.a.2 : ℤ)) +
           (if p.2.1 ≠ 0 then -(p.2.2 : ℤ) else (p.2.2 : ℤ))
       ((if sum < 0 then 1 else 0), sum.natAbs % 2 ^ 24)) := by
  simp only [inst_add, arg_fetch_a]
  refine Prod.ext rfl ?_
  simp only
  congr 1
  split <;> omega

/-- C3: when the modified argument magnitude of a DIV-family opcode is
zero, the handler clears the run flag, reports "Divide by Zero Stop",
and leaves both registers exactly as they were. -/
theorem div_by_zero_stop (s : State) (h : (arg_fetch s).2.2 = 0) :
    inst_div s = ({ (arg_fetch s).1 with run := false }, "Divide by Zero Stop") ∧
    (inst_div s).1.a = s.a ∧ (inst_div s).1.b = s.b ∧ (inst_div s).1.run = false := by
  have he : inst_div s = ({ (arg_fetch s).1 with run := false }, "Divide by Zero Stop") := by
    simp only [inst_div]
    rw [if_pos h]
  refine ⟨he, ?_, ?_, ?_⟩ <;> rw [he] <;> simp

/-- Witness for C3: dividing by the (zero) content of address 0 from
`A = -5, B = +9` stops the CPU with the divide-by-zero report and keeps
both registers. -/
theorem div_by_zero_stop_witness :
    (arg_fetch { st0 with opcode := 20, a := (1, 5), b := (0, 9) }).2.2 = 0 ∧
    (inst_div { st0 with opcode := 20, a := (1, 5), b := (0, 9) }).1.a = (1, 5) ∧
    (inst_div { st0 with opcode := 20, a := (1, 5), b := (0, 9) }).1.b = (0, 9) ∧
    (inst_div { st0 with opcode := 20, a := (1, 5), b := (0, 9) }).1.run = false ∧
    (inst_div { st0 with opcode := 20, a := (1, 5), b := (0, 9) }).2 =
      "Divide by Zero Stop" := by
  have h := div_by_zero_stop { st0 with opcode := 20, a := (1, 5), b := (0, 9) } (by decide)
  exact ⟨by decide, h.2.1, h.2.2.1, h.2.2.2, by rw [h.1]⟩

section MoreLemmas

theorem signMod_pass (s : State) (h : s.opcode % 4 = 0) (sv : ℕ) :
    signMod s sv = if sv ≠ 0 then 1 else 0 := by
  simp only [signMod]
  rw [if_neg (by omega), if_neg (by omega), if_neg (by omega)]

theorem signMod_abs (s : State) (h : s.opcode % 4 = 2) (sv : ℕ) :
    signMod s sv = 0 := by
  simp only [signMod]
  rw [if_neg (by omega), if_pos h]

theorem signMod_minus_abs (s : State) (h : s.opcode % 4 = 3) (sv : ℕ) :
    signMod s sv = 1 := by
  simp only [signMod]
  rw [if_neg (by omega), if_neg (by omega), if_pos h]

theorem shift_zero_count (s : State) (h : s.count = 0) (v : ℕ) :
    shift s v = v % 2 ^ 24 := by
  simp [shift, h]

theorem doRT_cons_zero (sgn : Option ℕ) (val numCols : ℕ) (hn : numCols ≠ 0)
    (rest : List ℕ) :
    doRT sgn val numCols (0 :: rest) = doRT sgn val numCols rest := by
  simp [doRT, hn]

theorem doRT_append_zeros (zs : List ℕ) (hz : ∀ x ∈ zs, x = 0) (sgn : Option ℕ)
    (val numCols : ℕ) (hn : numCols ≠ 0) (rest : List ℕ) :
    doRT sgn val numCols (zs ++ rest) = doRT sgn val numCols rest := by
  induction zs with
  | nil => rfl
  | cons c t ih =>
    have hc : c = 0 := hz c (List.mem_cons_self c t)
    have ht : ∀ x ∈ t, x = 0 := fun x hx => hz x (List.mem_cons_of_mem c hx)
    subst hc
    rw [List.cons_append, doRT_cons_zero sgn val numCols hn (t ++ rest)]
    exact ih ht

theorem doRT_nil_eof (sgn : Option ℕ) (val numCols : ℕ) (hn : numCols ≠ 0) :
    doRT sgn val numCols [] = RTRes.eof := by
  simp [doRT, hn]

end MoreLemmas

/-- C5 counterexample: execute opcode octal 17 (ADD family, `opcode & 3
== 3`, the minus-absolute modifier) with `A = +5` and a memory argument
of `+3`: the decoded opcode has low bits 3, yet the resulting A sign is
0, not 1 — the modifier was applied to the fetched argument, not to the
result. -/
theorem forced_sign_counterexample :
    (exec { st0 with
        mem := fun i => if i = 0 then 3932176 else if i = 16 then 3 else 0,
        a := (0, 5) }).1.opcode % 4 = 3 ∧
    (exec { st0 with
        mem := fun i => if i = 0 then 3932176 else if i = 16 then 3 else 0,
        a := (0, 5) }).1.a.1 = 0 := by
  exact ⟨by decide, by decide⟩

/-- C5 as amended: the forced sign modifiers govern the result only for
the families that write the modified value itself — CLA/CLS and STA/STB.
For those, `opcode & 3 == 2` forces result sign 0 and `opcode & 3 == 3`
forces result sign 1, regardless of argument and prior registers.  (For
AND/ADD/MLT/DIV the modifier is applied to the fetched argument, and the
result sign is computed from it, so no result sign is forced.) -/
theorem forced_sign_modifiers (s : State) :
    (s.opcode % 4 = 2 →
      (inst_cla s).1.a.1 = 0 ∧
      (inst_sta s).1.mem s.addr / 2 ^ 24 = 0 ∧
      (inst_stb s).1.mem s.addr / 2 ^ 24 = 0) ∧
    (s.opcode % 4 = 3 →
      (inst_cla s).1.a.1 = 1 ∧
      (inst_sta s).1.mem s.addr / 2 ^ 24 = 1 ∧
      (inst_stb s).1.mem s.addr / 2 ^ 24 = 1) := by
  have hsta : ∀ reg, (store_reg s s.addr reg).1.mem s.addr =
      signMod s reg.1 * 2 ^ 24 + shift s reg.2 := by
    intro reg
    simp [store_reg]
  constructor
  · intro h
    refine ⟨?_, ?_, ?_⟩
    · simp [inst_cla, arg_fetch, signMod_abs s h]
    · rw [inst_sta, hsta, signMod_abs s h]
      have := shift_lt s s.a.2
      omega
    · rw [inst_stb, hsta, signMod_abs s h]
      have := shift_lt s s.b.2
      omega
  · intro h
    refine ⟨?_, ?_, ?_⟩
    · simp [inst_cla, arg_fetch, signMod_minus_abs s h]
    · rw [inst_sta, hsta, signMod_minus_abs s h]
      have := shift_lt s s.a.2
      omega
    · rw [inst_stb, hsta, signMod_minus_abs s h]
      have := shift_lt s s.b.2
      omega

/-- Witness for the amended C5: opcode 10 (`& 3 = 2`) forces a positive
result in CLA, opcode 11 (`& 3 = 3`) forces a negative stored sign in
STA, both from a negative A. -/
theorem forced_sign_modifiers_witness :
    ((10 : ℕ) % 4 = 2 ∧ (inst_cla { st0 with opcode := 10, a := (1, 5) }).1.a.1 = 0) ∧
    ((11 : ℕ) % 4 = 3 ∧
      (inst_sta { st0 with opcode := 11, a := (1, 5) }).1.mem 0 / 2 ^ 24 = 1) := by
  refine ⟨⟨by decide, ?_⟩, ⟨by decide, ?_⟩⟩
  · exact ((forced_sign_modifiers { st0 with opcode := 10, a := (1, 5) }).1 (by decide)).1
  · exact ((forced_sign_modifiers { st0 with opcode := 11, a := (1, 5) }).2 (by decide)).2.1

/-- C6 counterexample: a tape word whose first non-blank byte is 0x40
(decimal 64) parses with stored sign bit 0 (positive), although 0x40 is
a non-zero byte value — the 0x40-to-0 conversion happens before the sign
test, so "any non-zero value marks a negative word" fails at 0x40. -/
theorem rt_sign_byte_counterexample :
    doRT none 0 4 [64, 1, 1, 1, 1] = RTRes.word 266305 [] ∧ 266305 / 2 ^ 24 = 0 := by
  exact ⟨by decide, by decide⟩

/-- C6 as amended: within each word the first non-0x00 byte is the sign
byte; it marks the word negative exactly when its value is neither 0x00
nor 0x40 — a 0x40 sign byte is converted to digit value 0 before the
sign test and yields a positive word. -/
theorem rt_sign_byte (zs : List ℕ) (hz : ∀ x ∈ zs, x = 0) (c : ℕ) (h0 : c ≠ 0)
    (h64 : c ≤ 64) (rest : List ℕ) :
    doRT none 0 4 (zs ++ c :: rest) =
      doRT (some (if c = 64 then 0 else 2 ^ 24)) 0 4 rest := by
  rw [doRT_append_zeros zs hz none 0 4 (by norm_num) (c :: rest)]
  show doRT none 0 4 (c :: rest) = _
  simp only [doRT]
  rw [if_neg (by norm_num), if_neg (by omega), if_neg h0]
  by_cases hc : c = 64
  · simp [hc]
  · simp [hc, h0]

/-- Witness for the amended C6: after two blank bytes, sign byte 7
(non-zero, not 0x40) starts a negative word; the full parse yields the
word `2^24 + 266304`, whose sign bit is 1. -/
theorem rt_sign_byte_witness :
    doRT none 0 4 ([0, 0] ++ 7 :: [1, 1, 1, 64]) =
      doRT (some (if (7 : ℕ) = 64 then 0 else 2 ^ 24)) 0 4 [1, 1, 1, 64] ∧
    doRT none 0 4 [0, 0, 7, 1, 1, 1, 64] = RTRes.word 17043520 [] ∧
    17043520 / 2 ^ 24 = 1 := by
  refine ⟨?_, by decide, by decide⟩
  exact rt_sign_byte [0, 0] (by decide) 7 (by decide) (by decide) [1, 1, 1, 64]

/-- C7: reaching end of stream while RT is reading — here in the middle
of a word — stops the transfer loop without touching the run flag and
detaches the tape handle; a subsequent RT with no tape attached stops
the CPU reporting "No Tape in PTReader". -/
theorem rt_eof_clean (s : State) (bytes : List ℕ) (n : ℕ) :
    (doRT none 0 4 bytes = RTRes.eof → rtLoop s bytes (n + 1) = { s with ptr := none }) ∧
    (s.ptr = none → inst_rt s = ({ s with run := false }, "No Tape in PTReader")) := by
  constructor
  · intro h
    simp [rtLoop, h]
  · intro h
    simp [inst_rt, h]

/-- Witness for C7: the tape `[5, 1]` ends after the sign byte and one
digit; the loop stops cleanly with the tape detached, and a second RT
stops the CPU with the no-tape report. -/
theorem rt_eof_clean_witness :
    doRT none 0 4 [5, 1] = RTRes.eof ∧
    rtLoop { st0 with ptr := some [5, 1], count := 63 } [5, 1] 1 =
      { st0 with ptr := none, count := 63 } ∧
    inst_rt { st0 with ptr := none, count := 63 } =
      ({ st0 with ptr := none, count := 63, run := false }, "No Tape in PTReader") := by
  refine ⟨by decide, ?_, ?_⟩
  · exact ((rt_eof_clean { st0 with ptr := some [5, 1], count := 63 } [5, 1] 0).1
      (by decide)).trans (by rfl)
  · exact (rt_eof_clean { st0 with ptr := none, count := 63 } [] 0).2 rfl

/-- C8: STA to address `k` followed by CLA from `k`, both with count 0
and the pass-through sign modifier (opcodes octal 30 then 10), restores
A bit for bit — including the sign of a zero magnitude. -/
theorem sta_cla_roundtrip (s : State) (k : ℕ)
    (hsgn : s.a.1 < 2) (hmag : s.a.2 < 2 ^ 24)
    (hop : s.opcode = 24) (hcnt : s.count = 0) (haddr : s.addr = k) :
    (inst_cla { (inst_sta s).1 with opcode := 8, count := 0, addr := k }).1.a = s.a := by
  have hst : (inst_sta s).1.mem k = s.a.1 * 2 ^ 24 + s.a.2 := by
    rw [inst_sta, haddr]
    have : (store_reg s k s.a).1.mem k = signMod s s.a.1 * 2 ^ 24 + shift s s.a.2 := by
      simp [store_reg]
    rw [this, signMod_pass s (by omega) s.a.1, shift_zero_count s hcnt s.a.2,
      Nat.mod_eq_of_lt hmag]
    split <;> omega
  have hcla : ∀ t : State, t.opcode = 8 → t.count = 0 → t.addr = k →
      t.mem k = s.a.1 * 2 ^ 24 + s.a.2 → (inst_cla t).1.a = s.a := by
    intro t hto htc hta htm
    have h1 : (inst_cla t).1.a =
        (signMod t (t.mem t.addr / 2 ^ 24 % 256), shift t (t.mem t.addr % 2 ^ 24)) := by
      simp [inst_cla, arg_fetch]
    rw [h1, hta, htm]
    have hd : (s.a.1 * 2 ^ 24 + s.a.2) / 2 ^ 24 % 256 = s.a.1 := by omega
    have hm : (s.a.1 * 2 ^ 24 + s.a.2) % 2 ^ 24 = s.a.2 := by omega
    rw [hd, hm, signMod_pass t (by omega) s.a.1, shift_zero_count t htc s.a.2,
      Nat.mod_eq_of_lt hmag]
    have : (if s.a.1 ≠ 0 then 1 else 0) = s.a.1 := by split <;> omega
    rw [this]
  exact hcla _ rfl rfl rfl hst

/-- Witness for C8: the round trip through address 7 preserves a
negative zero A. -/
theorem sta_cla_roundtrip_witness :
    (inst_cla { (inst_sta { st0 with opcode := 24, addr := 7, a := (1, 0) }).1 with
        opcode := 8, count := 0, addr := 7 }).1.a = (1, 0) :=
  sta_cla_roundtrip { st0 with opcode := 24, addr := 7, a := (1, 0) } 7
    (by decide) (by decide) rfl rfl rfl

section CountLemmas

theorem taLoop_icnt : ∀ (n : ℕ) (s : State),
    (taLoop s n).instruction_count = s.instruction_count := by
  intro n
  induction n with
  | zero => intro s; rfl
  | succ n ih =>
    intro s
    simp only [taLoop]
    rw [ih]
    simp

theorem tiLoop_icnt : ∀ (n : ℕ) (s : State),
    (tiLoop s n).instruction_count = s.instruction_count := by
  intro n
  induction n with
  | zero => intro s; rfl
  | succ n ih =>
    intro s
    simp only [tiLoop]
    rw [ih]
    simp

theorem rtLoop_icnt : ∀ (n : ℕ) (s : State) (bytes : List ℕ),
    (rtLoop s bytes n).instruction_count = s.instruction_count := by
  intro n
  induction n with
  | zero => intro s bytes; rfl
  | succ n ih =>
    intro s bytes
    simp only [rtLoop]
    cases h : doRT none 0 4 bytes with
    | word w rest =>
      rw [ih]
      simp
    | eof => rfl
    | invalid rest => rfl

theorem runOp_icnt (op : Op) (s : State) :
    (runOp op s).1.instruction_count = s.instruction_count := by
  cases op
  case hlt => rfl
  case andA => simp [runOp, inst_and]
  case cla => simp [runOp, inst_cla]
  case add => simp [runOp, inst_add]
  case mlt => simp [runOp, inst_mlt]
  case div =>
    simp only [runOp, inst_div]
    split
    · simp
    · simp
  case sta => simp [runOp, inst_sta, store_reg]
  case stb => simp [runOp, inst_stb, store_reg]
  case jmp => rfl
  case brMinus =>
    simp only [runOp, inst_br_minus]
    split
    · rfl
    · rfl
  case brPlus =>
    simp only [runOp, inst_br_plus]
    split
    · rfl
    · rfl
  case brz =>
    simp only [runOp, inst_brz]
    split
    · rfl
    · rfl
  case ta => simp [runOp, inst_ta, taLoop_icnt]
  case rt =>
    simp only [runOp, inst_rt]
    cases h : s.ptr with
    | some bytes => simp [rtLoop_icnt]
    | none => rfl
  case ti => simp [runOp, inst_ti, tiLoop_icnt]

end CountLemmas

/-- C4: a state whose PC is in the breakpoint set steps to the same
state with only the run flag cleared, returning "Breakpoint at pc" —
no fetch happens, so no address-compare stop can trip, and PC, the
instruction counter, A, B, and all of memory are untouched; when the PC
is not at a breakpoint, the dispatched instruction (HLT and invalid
opcodes included) increases the instruction counter by exactly one. -/
theorem exec_breakpoint_and_count (s : State) :
    (s.pc ∈ s.bpt → exec s = ({ s with run := false }, "Breakpoint at " ++ fmtOctW 4 s.pc)) ∧
    (s.pc ∉ s.bpt → (exec s).1.instruction_count = s.instruction_count + 1) := by
  constructor
  · intro h
    simp [exec, h]
  · intro h
    simp only [exec]
    rw [if_neg h]
    split
    · rw [runOp_icnt]
      simp
    · simp

/-- Witness for C4: a breakpoint at PC 5 stops the machine untouched,
and a plain step (here of a HLT at address 0) bumps the counter by
one. -/
theorem exec_breakpoint_and_count_witness :
    (5 ∈ ({ st0 with pc := 5, bpt := [5] } : State).bpt) ∧
    exec { st0 with pc := 5, bpt := [5] } =
      ({ st0 with pc := 5, bpt := [5], run := false }, "Breakpoint at " ++ fmtOctW 4 5) ∧
    fmtOctW 4 5 = "0005" ∧
    (exec st0).1.instruction_count = st0.instruction_count + 1 := by
  refine ⟨by decide, ?_, by decide, ?_⟩
  · exact (exec_breakpoint_and_count { st0 with pc := 5, bpt := [5] }).1 (by decide)
  · exact (exec_breakpoint_and_count st0).2 (by decide)

section InvariantLemmas

theorem inv_of_fields {s t : State} (h : Inv s) (hpc : t.pc = s.pc) (ha : t.a = s.a)
    (hb : t.b = s.b) (hm : t.mem = s.mem) : Inv t := by
  obtain ⟨h1, h2, h3, h4, h5, h6⟩ := h
  refine ⟨?_, ?_, ?_, ?_, ?_, ?_⟩
  · rw [hpc]; exact h1
  · rw [ha]; exact h2
  · rw [ha]; exact h3
  · rw [hb]; exact h4
  · rw [hb]; exact h5
  · rw [hm]; exact h6

theorem inv_rm (s : State) (i : ℕ) (h : Inv s) : Inv (rm s i).1 :=
  inv_of_fields h (rm_pc s i) (rm_a s i) (rm_b s i) (rm_mem s i)

theorem inv_wm (s : State) (i v : ℕ) (h : Inv s) (hv : v < 2 ^ 25) : Inv (wm s i v) := by
  obtain ⟨h1, h2, h3, h4, h5, h6⟩ := h
  refine ⟨?_, ?_, ?_, ?_, ?_, ?_⟩
  · rw [wm_pc]; exact h1
  · rw [wm_a]; exact h2
  · rw [wm_a]; exact h3
  · rw [wm_b]; exact h4
  · rw [wm_b]; exact h5
  · intro j
    rw [wm_mem]
    split
    · exact hv
    · exact h6 j

theorem inv_arg_fetch (s : State) (h : Inv s) : Inv (arg_fetch s).1 :=
  inv_of_fields h (arg_fetch_pc s) (arg_fetch_a s) (arg_fetch_b s) (arg_fetch_mem s)

theorem arg_fetch_sign_lt (s : State) : (arg_fetch s).2.1 < 2 := by
  simp only [arg_fetch]
  exact signMod_lt_two s _

theorem arg_fetch_mag_lt (s : State) : (arg_fetch s).2.2 < 2 ^ 24 := by
  simp only [arg_fetch]
  exact shift_lt s _

theorem inv_inst_and (s : State) (h : Inv s) : Inv (inst_and s).1 := by
  obtain ⟨h1, h2, h3, h4, h5, h6⟩ := h
  have hand : (arg_fetch s).2.2 &&& s.a.2 < 2 ^ 24 := lt_of_le_of_lt Nat.and_le_right h3
  unfold Inv
  simp only [inst_and, arg_fetch_a, arg_fetch_b, arg_fetch_pc, arg_fetch_mem]
  refine ⟨h1, ?_, hand, h4, h5, h6⟩
  split <;> omega

theorem inv_inst_cla (s : State) (h : Inv s) : Inv (inst_cla s).1 := by
  obtain ⟨h1, h2, h3, h4, h5, h6⟩ := h
  unfold Inv
  simp only [inst_cla, arg_fetch_pc, arg_fetch_b, arg_fetch_mem]
  exact ⟨h1, arg_fetch_sign_lt s, arg_fetch_mag_lt s, h4, h5, h6⟩

theorem ite_lt_two {c : Prop} [Decidable c] {x y : ℕ} (hx : x < 2) (hy : y < 2) :
    (if c then x else y) < 2 := by
  split
  · exact hx
  · exact hy

theorem inv_inst_add (s : State) (h : Inv s) : Inv (inst_add s).1 := by
  obtain ⟨h1, h2, h3, h4, h5, h6⟩ := h
  unfold Inv
  simp only [inst_add, arg_fetch_a, arg_fetch_b, arg_fetch_pc, arg_fetch_mem]
  exact ⟨h1, ite_lt_two (by omega) (by omega), Nat.mod_lt _ (by norm_num), h4, h5, h6⟩

theorem inv_inst_mlt (s : State) (h : Inv s) : Inv (inst_mlt s).1 := by
  obtain ⟨h1, h2, h3, h4, h5, h6⟩ := h
  unfold Inv
  simp only [inst_mlt, arg_fetch_a, arg_fetch_b, arg_fetch_pc, arg_fetch_mem]
  refine ⟨h1, ?_, Nat.mod_lt _ (by norm_num), ?_, Nat.mod_lt _ (by norm_num), h6⟩
  · split <;> omega
  · split <;> omega

theorem inv_inst_div (s : State) (h : Inv s) : Inv (inst_div s).1 := by
  simp only [inst_div]
  split
  · exact inv_of_fields (inv_arg_fetch s h) rfl rfl rfl rfl
  · obtain ⟨h1, h2, h3, h4, h5, h6⟩ := h
    unfold Inv
    simp only [arg_fetch_a, arg_fetch_b, arg_fetch_pc, arg_fetch_mem]
    refine ⟨h1, ?_, Nat.mod_lt _ (by norm_num), ?_, Nat.mod_lt _ (by norm_num), h6⟩
    · split <;> omega
    · split <;> omega

theorem inv_store_reg (s : State) (i : ℕ) (reg : ℕ × ℕ) (h : Inv s) :
    Inv (store_reg s i reg).1 := by
  have hw : signMod s reg.1 * 2 ^ 24 + shift s reg.2 < 2 ^ 25 := by
    have := signMod_lt_two s reg.1
    have := shift_lt s reg.2
    omega
  simp only [store_reg]
  exact inv_wm s i _ h hw

theorem inv_inst_sta (s : State) (h : Inv s) : Inv (inst_sta s).1 :=
  inv_store_reg s s.addr s.a h

theorem inv_inst_stb (s : State) (h : Inv s) : Inv (inst_stb s).1 :=
  inv_store_reg s s.addr s.b h

theorem inv_inst_jmp (s : State) (h : Inv s) (ha : s.addr < 4096) : Inv (inst_jmp s).1 := by
  obtain ⟨h1, h2, h3, h4, h5, h6⟩ := h
  exact ⟨ha, h2, h3, h4, h5, h6⟩

theorem inv_inst_br_minus (s : State) (h : Inv s) (ha : s.addr < 4096) :
    Inv (inst_br_minus s).1 := by
  unfold inst_br_minus
  split
  · exact inv_inst_jmp s h ha
  · exact h

theorem inv_inst_br_plus (s : State) (h : Inv s) (ha : s.addr < 4096) :
    Inv (inst_br_plus s).1 := by
  unfold inst_br_plus
  split
  · exact inv_inst_jmp s h ha
  · exact h

theorem inv_inst_brz (s : State) (h : Inv s) (ha : s.addr < 4096) :
    Inv (inst_brz s).1 := by
  unfold inst_brz
  split
  · exact h
  · exact inv_inst_jmp s h ha

theorem inv_taLoop : ∀ (n : ℕ) (s : State), Inv s → Inv (taLoop s n) := by
  intro n
  induction n with
  | zero => intro s h; exact h
  | succ n ih =>
    intro s h
    simp only [taLoop]
    apply ih
    exact inv_of_fields (inv_rm s s.addr h) (by simp) (by simp) (by simp) (by simp)

theorem doRT_step (sgn : Option ℕ) (val n c : ℕ) (rest : List ℕ) (h0 : n ≠ 0)
    (hc64 : ¬64 < c) (hc0 : c ≠ 0) :
    doRT sgn val n (c :: rest) =
      match sgn with
      | none =>
        doRT (some (if (if c = 64 then 0 else c) = 0 then 0 else 2 ^ 24)) val n rest
      | some sg => doRT (some sg) (val * 64 + (if c = 64 then 0 else c)) (n - 1) rest := by
  simp only [doRT]
  rw [if_neg h0, if_neg hc64, if_neg hc0]

theorem doRT_done (sgn : Option ℕ) (val : ℕ) (bytes : List ℕ) :
    doRT sgn val 0 bytes = RTRes.word (sgn.getD 0 + val) bytes := by
  cases bytes <;> simp [doRT]

theorem doRT_word_bound : ∀ (bytes : List ℕ) (sgn : Option ℕ) (val n w : ℕ)
    (rest : List ℕ), (sgn = none ∨ sgn = some 0 ∨ sgn = some (2 ^ 24)) →
    n ≤ 4 → val < 64 ^ (4 - n) →
    doRT sgn val n bytes = RTRes.word w rest → w < 2 ^ 25 := by
  have hdone : ∀ (sgn : Option ℕ) (val n w : ℕ) (bytes rest : List ℕ),
      (sgn = none ∨ sgn = some 0 ∨ sgn = some (2 ^ 24)) → n = 0 → val < 64 ^ (4 - n) →
      doRT sgn val n bytes = RTRes.word w rest → w < 2 ^ 25 := by
    intro sgn val n w bytes rest hs hn hv heq
    subst hn
    rw [doRT_done] at heq
    have hw : w = sgn.getD 0 + val := by
      cases heq
      rfl
    have h24 : (64 : ℕ) ^ (4 - 0) = 2 ^ 24 := by norm_num
    rw [h24] at hv
    have hsg : sgn.getD 0 ≤ 2 ^ 24 := by
      rcases hs with h | h | h <;> subst h <;> simp
    omega
  intro bytes
  induction bytes with
  | nil =>
    intro sgn val n w rest hs hn hv heq
    by_cases h0 : n = 0
    · exact hdone sgn val n w [] rest hs h0 hv heq
    · rw [doRT_nil_eof sgn val n h0] at heq
      exact absurd heq (by simp)
  | cons c t ih =>
    intro sgn val n w rest hs hn hv heq
    by_cases h0 : n = 0
    · exact hdone sgn val n w (c :: t) rest hs h0 hv heq
    · by_cases hc64 : 64 < c
      · rw [show doRT sgn val n (c :: t) = RTRes.invalid t from by
            simp only [doRT]; rw [if_neg h0, if_pos hc64]] at heq
        exact absurd heq (by simp)
      · by_cases hc0 : c = 0
        · subst hc0
          rw [doRT_cons_zero sgn val n h0 t] at heq
          exact ih sgn val n w rest hs hn hv heq
        · rw [doRT_step sgn val n c t h0 hc64 hc0] at heq
          have hcv : (if c = 64 then 0 else c) ≤ 63 := by split <;> omega
          rcases hs with h | h | h
          · subst h
            apply ih _ val n w rest _ hn hv heq
            split
            · exact Or.inr (Or.inl rfl)
            · exact Or.inr (Or.inr rfl)
          · subst h
            refine ih _ _ (n - 1) w rest (Or.inr (Or.inl rfl)) (by omega) ?_ heq
            have he : 4 - (n - 1) = (4 - n) + 1 := by omega
            rw [he, pow_succ]
            omega
          · subst h
            refine ih _ _ (n - 1) w rest (Or.inr (Or.inr rfl)) (by omega) ?_ heq
            have he : 4 - (n - 1) = (4 - n) + 1 := by omega
            rw [he, pow_succ]
            omega

theorem inv_rtLoop : ∀ (n : ℕ) (s : State) (bytes : List ℕ),
    Inv s → Inv (rtLoop s bytes n) := by
  intro n
  induction n with
  | zero =>
    intro s bytes h
    exact inv_of_fields h rfl rfl rfl rfl
  | succ n ih =>
    intro s bytes h
    simp only [rtLoop]
    cases heq : doRT none 0 4 bytes with
    | eof => exact inv_of_fields h rfl rfl rfl rfl
    | invalid rest => exact inv_of_fields h rfl rfl rfl rfl
    | word w rest =>
      apply ih
      have hw : w < 2 ^ 25 :=
        doRT_word_bound bytes none 0 4 w rest (Or.inl rfl) (by norm_num) (by norm_num) heq
      exact inv_of_fields (inv_wm s s.addr w h hw) (by simp) (by simp) (by simp) (by simp)

theorem tiWord_lt (f : ℕ → Fin 64) : tiWord f < 2 ^ 24 := by
  have a0 := (f 0).isLt
  have a1 := (f 1).isLt
  have a2 := (f 2).isLt
  have a3 := (f 3).isLt
  unfold tiWord
  omega

theorem inv_tiLoop : ∀ (n : ℕ) (s : State), Inv s → Inv (tiLoop s n) := by
  intro n
  induction n with
  | zero => intro s h; exact h
  | succ n ih =>
    intro s h
    simp only [tiLoop]
    apply ih
    have hw : tiWord s.tiStream < 2 ^ 25 := lt_trans (tiWord_lt s.tiStream) (by norm_num)
    exact inv_of_fields (inv_wm s s.addr _ h hw) (by simp) (by simp) (by simp) (by simp)

theorem inv_inst_ta (s : State) (h : Inv s) : Inv (inst_ta s).1 :=
  inv_taLoop (64 - s.count) s h

theorem inv_inst_rt (s : State) (h : Inv s) : Inv (inst_rt s).1 := by
  simp only [inst_rt]
  cases hp : s.ptr with
  | some bytes => exact inv_rtLoop (64 - s.count) s bytes h
  | none => exact inv_of_fields h rfl rfl rfl rfl

theorem inv_inst_ti (s : State) (h : Inv s) : Inv (inst_ti s).1 :=
  inv_tiLoop (64 - s.count) s h

theorem inv_runOp (op : Op) (s : State) (h : Inv s) (ha : s.addr < 4096) :
    Inv (runOp op s).1 := by
  cases op
  case hlt => exact inv_of_fields h rfl rfl rfl rfl
  case andA => exact inv_inst_and s h
  case cla => exact inv_inst_cla s h
  case add => exact inv_inst_add s h
  case mlt => exact inv_inst_mlt s h
  case div => exact inv_inst_div s h
  case sta => exact inv_inst_sta s h
  case stb => exact inv_inst_stb s h
  case jmp => exact inv_inst_jmp s h ha
  case brMinus => exact inv_inst_br_minus s h ha
  case brPlus => exact inv_inst_br_plus s h ha
  case brz => exact inv_inst_brz s h ha
  case ta => exact inv_inst_ta s h
  case rt => exact inv_inst_rt s h
  case ti => exact inv_inst_ti s h

theorem inv_dispatch (t : State) (instr pc0 : ℕ) (h : Inv t) (ha : t.addr < 4096) :
    Inv (match decodeOp t.opcode with
         | some op => runOp op t
         | none => ({ t with run := false },
             "Invalid or Unknown OPCODE " ++ fmtOctW 8 instr ++ " at " ++
               fmtOctW 4 pc0)).1 := by
  cases hd : decodeOp t.opcode with
  | some op => exact inv_runOp op t h ha
  | none => exact inv_of_fields h rfl rfl rfl rfl

end InvariantLemmas

/-- C9: the machine invariant — PC below 4096, sign bits of A, B and
every memory word equal to 0 or 1 (packed words below `2^25`), and all
magnitudes within 24 bits — holds in every freshly constructed machine
and is preserved by every executed instruction, hence holds after every
instruction from any reachable state. -/
theorem exec_preserves_invariant :
    (∀ sg mg, Inv (initState sg mg)) ∧ ∀ s : State, Inv s → Inv (exec s).1 := by
  constructor
  · intro sg mg
    have hmem : ∀ i, (initState sg mg).mem i < 2 ^ 25 := by
      intro i
      have h1 := (sg i).isLt
      have h2 := (mg i).isLt
      simp only [initState]
      omega
    exact ⟨by simp [initState], by simp [initState], by simp [initState],
      by simp [initState], by simp [initState], hmem⟩
  · intro s h
    unfold exec
    split
    · exact inv_of_fields h rfl rfl rfl rfl
    · apply inv_dispatch
      · obtain ⟨h1, h2, h3, h4, h5, h6⟩ := inv_rm s s.pc h
        exact ⟨Nat.mod_lt _ (by norm_num), h2, h3, h4, h5, h6⟩
      · exact Nat.mod_lt _ (by norm_num)

/-- Witness for C9: the invariant holds of the concrete quiescent state
and still holds after one executed instruction. -/
theorem exec_preserves_invariant_witness : Inv st0 ∧ Inv (exec st0).1 := by
  have h : Inv st0 := by
    refine ⟨by decide, by decide, by decide, by decide, by decide, ?_⟩
    intro i
    show (0 : ℕ) < 2 ^ 25
    norm_num
  exact ⟨h, exec_preserves_invariant.2 st0 h⟩

section BlankLemmas

theorem doRT_zeros_eof (zs : List ℕ) (hz : ∀ x ∈ zs, x = 0) (sgn : Option ℕ)
    (val n : ℕ) (hn : n ≠ 0) : doRT sgn val n zs = RTRes.eof := by
  have h := doRT_append_zeros zs hz sgn val n hn []
  rw [List.append_nil] at h
  rw [h]
  exact doRT_nil_eof sgn val n hn

theorem doRT_filter_congr : ∀ (s1 s2 : List ℕ),
    s1.filter (· != 0) = s2.filter (· != 0) →
    ∀ (sgn : Option ℕ) (val n : ℕ), n ≠ 0 →
    RTEq (doRT sgn val n s1) (doRT sgn val n s2) := by
  intro s1
  induction s1 with
  | nil =>
    intro s2 hf sgn val n hn
    have hz : ∀ x ∈ s2, x = 0 := by
      intro x hx
      by_contra hne
      have hmem : x ∈ s2.filter (· != 0) := List.mem_filter.2 ⟨hx, by simpa using hne⟩
      rw [← hf] at hmem
      simp at hmem
    rw [doRT_nil_eof sgn val n hn, doRT_zeros_eof s2 hz sgn val n hn]
    trivial
  | cons c t ih =>
    intro s2 hf sgn val n hn
    by_cases hc0 : c = 0
    · subst hc0
      rw [doRT_cons_zero sgn val n hn t]
      apply ih s2 _ sgn val n hn
      simpa using hf
    · have hf1 : List.filter (· != 0) (c :: t) = c :: List.filter (· != 0) t := by
        simp [hc0]
      rw [hf1] at hf
      obtain ⟨l1, l2, hs2, hl1, hc, hfl2⟩ := List.filter_eq_cons_iff.1 hf.symm
      have hl1z : ∀ x ∈ l1, x = 0 := by
        intro x hx
        have hx0 := hl1 x hx
        simpa using hx0
      subst hs2
      rw [doRT_append_zeros l1 hl1z sgn val n hn (c :: l2)]
      by_cases hc64 : 64 < c
      · rw [show doRT sgn val n (c :: t) = RTRes.invalid t from by
          simp only [doRT]; rw [if_neg hn, if_pos hc64]]
        rw [show doRT sgn val n (c :: l2) = RTRes.invalid l2 from by
          simp only [doRT]; rw [if_neg hn, if_pos hc64]]
        exact hfl2.symm
      · rw [doRT_step sgn val n c t hn hc64 hc0, doRT_step sgn val n c l2 hn hc64 hc0]
        cases sgn with
        | none => exact ih l2 hfl2.symm _ val n hn
        | some sg =>
          show RTEq (doRT (some sg) (val * 64 + if c = 64 then 0 else c) (n - 1) t)
            (doRT (some sg) (val * 64 + if c = 64 then 0 else c) (n - 1) l2)
          by_cases hn1 : n - 1 = 0
          · rw [hn1, doRT_done, doRT_done]
            exact ⟨rfl, hfl2.symm⟩
          · exact ih l2 hfl2.symm _ _ _ hn1

theorem rtLoop_filter_congr : ∀ (n : ℕ) (s : State) (s1 s2 : List ℕ),
    s1.filter (· != 0) = s2.filter (· != 0) →
    (rtLoop s s1 n).mem = (rtLoop s s2 n).mem ∧
    (rtLoop s s1 n).addr = (rtLoop s s2 n).addr ∧
    (rtLoop s s1 n).run = (rtLoop s s2 n).run := by
  intro n
  induction n with
  | zero => intro s s1 s2 hf; exact ⟨rfl, rfl, rfl⟩
  | succ n ih =>
    intro s s1 s2 hf
    have h := doRT_filter_congr s1 s2 hf none 0 4 (by norm_num)
    simp only [rtLoop]
    cases h1 : doRT none 0 4 s1 <;> cases h2 : doRT none 0 4 s2 <;>
      rw [h1, h2] at h
    case word.word w1 r1 w2 r2 =>
      obtain ⟨hw, hr⟩ := h
      subst hw
      exact ih _ r1 r2 hr
    case word.eof => exact h.elim
    case word.invalid => exact h.elim
    case eof.word => exact h.elim
    case eof.eof => exact ⟨rfl, rfl, rfl⟩
    case eof.invalid => exact h.elim
    case invalid.word => exact h.elim
    case invalid.eof => exact h.elim
    case invalid.invalid => exact ⟨rfl, rfl, rfl⟩

end BlankLemmas

/-- C10: a 0x00 tape byte is skipped at every position within a word —
`doRT` drops a leading 0x00 wherever it is in the parse — and therefore
the RT transfer loop produces the same memory contents, working address
and run flag on any two streams that agree after deleting all 0x00
bytes; in particular inserting extra 0x00 bytes anywhere leaves the
stored word sequence unchanged. -/
theorem rt_blank_insensitive :
    (∀ (sgn : Option ℕ) (val n : ℕ) (rest : List ℕ), n ≠ 0 →
      doRT sgn val n (0 :: rest) = doRT sgn val n rest) ∧
    (∀ (s1 s2 : List ℕ), s1.filter (· != 0) = s2.filter (· != 0) →
      ∀ (n : ℕ) (s : State),
        (rtLoop s s1 n).mem = (rtLoop s s2 n).mem ∧
        (rtLoop s s1 n).addr = (rtLoop s s2 n).addr ∧
        (rtLoop s s1 n).run = (rtLoop s s2 n).run) := by
  constructor
  · intro sgn val n rest hn
    exact doRT_cons_zero sgn val n hn rest
  · intro s1 s2 hf n s
    exact rtLoop_filter_congr n s s1 s2 hf

/-- Witness for C10: a blank is skipped between two digit bytes, and a
raw tape and the same tape with 0x00 bytes inserted before, inside and
after the word produce the same memory; the word lands at address 0 with
value `2^24 + 266305`. -/
theorem rt_blank_insensitive_witness :
    doRT (some 0) 3 4 (0 :: [7]) = doRT (some 0) 3 4 [7] ∧
    ([5, 1, 1, 1, 1] : List ℕ).filter (· != 0) =
      ([0, 5, 0, 1, 1, 0, 0, 1, 1, 0] : List ℕ).filter (· != 0) ∧
    (rtLoop st0 [5, 1, 1, 1, 1] 1).mem = (rtLoop st0 [0, 5, 0, 1, 1, 0, 0, 1, 1, 0] 1).mem ∧
    (rtLoop st0 [5, 1, 1, 1, 1] 1).mem 0 = 2 ^ 24 + 266305 := by
  refine ⟨?_, by decide, ?_, by decide⟩
  · exact rt_blank_insensitive.1 (some 0) 3 4 [7] (by norm_num)
  · exact (rt_blank_insensitive.2 [5, 1, 1, 1, 1] [0, 5, 0, 1, 1, 0, 0, 1, 1, 0]
      (by decide) 1 st0).1

end Digiac3080
